import Mathlib

/-!
Shallow embedding of the halo2 Lean-extraction engine
(`src/extraction.rs`, `src/utils.rs` of NethermindEth/halo2-extractor).

Strings are modelled as Lean `String`s, with character-level work done on
`List Char` (`String.data`).  Rust's `str::replace` (left-to-right,
non-overlapping, replace-all) is modelled by `replaceAll` below.  Machine
integers (`usize`, `u32`) are modelled as `ℕ`; the tool never relies on
overflow.  `BTreeMap`/`BTreeSet` are modelled as key-sorted association
lists / sorted duplicate-free lists, mirroring their iteration order.
Each recorder operation returns its successor state together with the list
of lines it prints (`println!` calls), in order; a panicking operation
(`unwrap` on `None`) is modelled by `Option.none`.
-/

namespace Halo2Extractor

/-- One-or-more occurrence test: does `pat` occur as a contiguous sublist of `s`?
(Position-0 prefix or an occurrence further right.) -/
def hasOcc (pat : List Char) : List Char → Bool
  | [] => pat.isEmpty
  | c :: rest => pat.isPrefixOf (c :: rest) || hasOcc pat rest

/-- Worker for `replaceAll`: `k` counts pattern characters still to skip after
an accepted match (so the recursion is structural in the string). -/
def replaceAllAux (pat rep : List Char) : ℕ → List Char → List Char
  | _+1, [] => []
  | k+1, _ :: rest => replaceAllAux pat rep k rest
  | 0, [] => []
  | 0, c :: rest =>
      if pat.isPrefixOf (c :: rest) then rep ++ replaceAllAux pat rep (pat.length - 1) rest
      else c :: replaceAllAux pat rep 0 rest

/-- Rust `str::replace`: replace every occurrence of `pat` by `rep`,
scanning left to right, non-overlapping. -/
def replaceAll (pat rep s : List Char) : List Char := replaceAllAux pat rep 0 s

/-- The characters of `"Instance"`. -/
def instTail : List Char := ['I', 'n', 's', 't', 'a', 'n', 'c', 'e']

/-- The patterns and replacements used by `add_lean_scoping`
(`extraction.rs`, lines 66–75), as explicit character lists. -/
def patSpace : List Char := ' ' :: instTail

def repSpace : List Char := ' ' :: 'c' :: '.' :: instTail

def patParen : List Char := '(' :: instTail

def repParen : List Char := '(' :: 'c' :: '.' :: instTail

def patStart : List Char := instTail ++ [' ']

/-- `add_lean_scoping` on character lists: replace `" Instance"` by
`" c.Instance"`, then `"(Instance"` by `"(c.Instance"`, then prefix `"c."`
when the result starts with `"Instance "`. -/
def scopeList (s : List Char) : List Char :=
  let t := replaceAll patParen repParen (replaceAll patSpace repSpace s)
  if patStart.isPrefixOf t then 'c' :: '.' :: t else t

/-- `ExtractingAssignment::add_lean_scoping` (`extraction.rs`, lines 66–75). -/
def add_lean_scoping (evaluated_expr : String) : String :=
  ⟨scopeList evaluated_expr.data⟩

/-- Extraction mode (`Target`, `extraction.rs` lines 19–22). -/
inductive Target where
  | Constraints
  | AdviceGenerator
deriving DecidableEq

/-- Column kind (`Any` of halo2, as far as the extractor distinguishes it). -/
inductive AnyKind where
  | Advice
  | Instance
  | Fixed
deriving DecidableEq

/-- The `{:?}` (Debug) rendering of a column kind, as used by `format_cell`. -/
def AnyKind.str : AnyKind → String
  | .Advice => "Advice"
  | .Instance => "Instance"
  | .Fixed => "Fixed"

/-- Insert a row into a sorted duplicate-free row list (`BTreeSet::insert`). -/
def insertRow (x : ℕ) : List ℕ → List ℕ
  | [] => [x]
  | y :: ys => if x < y then x :: y :: ys else if x = y then y :: ys else y :: insertRow x ys

/-- Insert/overwrite a `(key, value)` pair in a key-sorted association list
(`BTreeMap::insert`, last write wins). -/
def insertVal {β : Type} (k : ℕ) (v : β) : List (ℕ × β) → List (ℕ × β)
  | [] => [(k, v)]
  | (k', v') :: rest =>
      if k < k' then (k, v) :: (k', v') :: rest
      else if k = k' then (k, v) :: rest
      else (k', v') :: insertVal k v rest

/-- Update the entry of column `col` in a two-level table, creating a fresh
singleton map when the column is absent (the common body of `set_selector`,
`set_advice`, `set_fixed`). -/
def insertCell (col row : ℕ) (v : String) : List (ℕ × List (ℕ × String)) → List (ℕ × List (ℕ × String))
  | [] => [(col, [(row, v)])]
  | (c, m) :: rest =>
      if col < c then (col, [(row, v)]) :: (c, m) :: rest
      else if col = c then (c, insertVal row v m) :: rest
      else (c, m) :: insertCell col row v rest

/-- Same for the selector table, whose per-column data is a row set. -/
def insertSel (col row : ℕ) : List (ℕ × List ℕ) → List (ℕ × List ℕ)
  | [] => [(col, [row])]
  | (c, s) :: rest =>
      if col < c then (col, [row]) :: (c, s) :: rest
      else if col = c then (c, insertRow row s) :: rest
      else (c, s) :: insertSel col row rest

/-- Lookup in a two-level table. -/
def lookup2 (col row : ℕ) (t : List (ℕ × List (ℕ × String))) : Option String :=
  (t.lookup col).bind (fun m => m.lookup row)

/-- The recorder state (`struct ExtractingAssignment`, `extraction.rs`
lines 24–32).  The field element type `F` is irrelevant to the recorded
data (values are recorded as rendered text), so it is dropped. -/
structure ExtractingAssignment where
  current_region : Option String
  target : Target
  copy_count : ℕ
  selectors : List (ℕ × List ℕ)
  advice : List (ℕ × List (ℕ × String))
  fixed : List (ℕ × List (ℕ × String))

/-- `ExtractingAssignment::new` (`extraction.rs` lines 35–45). -/
def ExtractingAssignment.new (t : Target) : ExtractingAssignment :=
  ⟨none, t, 0, [], [], []⟩

/-- `format_cell`: `"{:?} {}"` of the parsed column type and index. -/
def format_cell (kind : AnyKind) (index : ℕ) : String :=
  kind.str ++ " " ++ toString index

/-- `set_selector` (`extraction.rs` lines 164–173). -/
def set_selector (s : ExtractingAssignment) (col row : ℕ) : ExtractingAssignment :=
  { s with selectors := insertSel col row s.selectors }

/-- `set_advice` (`extraction.rs` lines 175–184). -/
def set_advice (s : ExtractingAssignment) (col row : ℕ) (val : String) : ExtractingAssignment :=
  { s with advice := insertCell col row val s.advice }

/-- `set_fixed` (`extraction.rs` lines 186–196). -/
def set_fixed (s : ExtractingAssignment) (col row : ℕ) (val : String) : ExtractingAssignment :=
  { s with fixed := insertCell col row val s.fixed }

/-- `enter_region` (`extraction.rs` lines 203–211): store the region name
and print a comment line. -/
def enter_region (s : ExtractingAssignment) (name : String) : ExtractingAssignment × List String :=
  ({ s with current_region := some name }, ["\n-- Entered region: " ++ name])

/-- `exit_region` (`extraction.rs` lines 213–216): `unwrap`s the current
region (modelled as `none` on panic), prints a comment, clears the region. -/
def exit_region (s : ExtractingAssignment) : Option (ExtractingAssignment × List String) :=
  s.current_region.map fun r =>
    ({ s with current_region := none }, ["-- Exited region: " ++ r])

/-- `enable_selector` (`extraction.rs` lines 218–230), after the selector
handle has been resolved to its column index. -/
def enable_selector (s : ExtractingAssignment) (col row : ℕ) : ExtractingAssignment × List String :=
  (set_selector s col row, [])

/-- `query_instance` (`extraction.rs` lines 232–242): returns the placeholder
value text `"Instance <idx> <row>"`; the state is untouched, nothing printed. -/
def query_instance (col row : ℕ) : String :=
  format_cell AnyKind.Instance col ++ " " ++ toString row

/-- `assign_advice` (`extraction.rs` lines 244–268).  The lazily evaluated
value thunk is modelled as `Unit → Option String` producing the rendered
canonical field representation (`v.into().evaluate().to_string()`), with
`none` for `Value::unknown()`. -/
def assign_advice (s : ExtractingAssignment) (col row : ℕ)
    (toVal : Unit → Option String) : ExtractingAssignment × List String :=
  match s.target with
  | Target.Constraints => (s, [])
  | Target.AdviceGenerator =>
      match toVal () with
      | none => (s, [])
      | some v => (set_advice s col row (add_lean_scoping v), [])

/-- `assign_fixed` (`extraction.rs` lines 270–303). -/
def assign_fixed (s : ExtractingAssignment) (col row : ℕ)
    (toVal : Unit → Option String) : ExtractingAssignment × List String :=
  match toVal () with
  | none => (s, [])
  | some v => (set_fixed s col row (add_lean_scoping v), [])

/-- The text printed by one `copy` call (`extraction.rs` lines 319–326). -/
def copyLine (i : ℕ) (lk : AnyKind) (lcol lrow : ℕ) (rk : AnyKind) (rcol rrow : ℕ) : String :=
  "def copy_" ++ toString i ++ ": Prop := c." ++ format_cell lk lcol ++ " " ++ toString lrow
    ++ " = c." ++ format_cell rk rcol ++ " " ++ toString rrow

/-- `copy` (`extraction.rs` lines 305–329): print one equality predicate
carrying the current counter, then increment the counter. -/
def copy (s : ExtractingAssignment) (lk : AnyKind) (lcol lrow : ℕ)
    (rk : AnyKind) (rcol rrow : ℕ) : ExtractingAssignment × List String :=
  ({ s with copy_count := s.copy_count + 1 },
   [copyLine s.copy_count lk lcol lrow rk rcol rrow])

/-- `fill_from_row` (`extraction.rs` lines 331–339): no-op. -/
def fill_from_row (s : ExtractingAssignment) : ExtractingAssignment × List String := (s, [])

/-- `annotate_column` (`extraction.rs` lines 350–356). -/
def annotate_column (s : ExtractingAssignment) : ExtractingAssignment × List String :=
  (s, ["--Annotate column"])

/-- `get_challenge` (`extraction.rs` lines 358–361); the returned value is
always `Value::unknown()`. -/
def get_challenge (s : ExtractingAssignment) : ExtractingAssignment × List String :=
  (s, ["--Get challenge"])

/-- A synthesis event, as driven by the host floor planner.  Column/selector
handles appear here already resolved to their indices (identity resolution is
`Halo2Column::try_from` / `extract_selector_row`, modelled separately).
Value thunks appear pre-rendered (`none` = `Value::unknown()`); `step` wraps
them back into closures for `assign_advice`/`assign_fixed`. -/
inductive Event where
  | enterRegion (name : String)
  | exitRegion
  | enableSelector (col row : ℕ)
  | assignAdvice (col row : ℕ) (val : Option String)
  | assignFixed (col row : ℕ) (val : Option String)
  | copyEv (lk : AnyKind) (lcol lrow : ℕ) (rk : AnyKind) (rcol rrow : ℕ)
  | fillFromRow
  | pushNamespace (name : String)
  | popNamespace
  | annotateColumnEv
  | getChallengeEv

/-- One synthesis event applied to the recorder: next state plus printed
lines; `none` models a panic (`exit_region` with no active region). -/
def step (s : ExtractingAssignment) : Event → Option (ExtractingAssignment × List String)
  | .enterRegion name => some (enter_region s name)
  | .exitRegion => exit_region s
  | .enableSelector col row => some (enable_selector s col row)
  | .assignAdvice col row val => some (assign_advice s col row (fun _ => val))
  | .assignFixed col row val => some (assign_fixed s col row (fun _ => val))
  | .copyEv lk lc lr rk rc rr => some (copy s lk lc lr rk rc rr)
  | .fillFromRow => some (fill_from_row s)
  | .pushNamespace _ => some (s, [])
  | .popNamespace => some (s, [])
  | .annotateColumnEv => some (annotate_column s)
  | .getChallengeEv => some (get_challenge s)

/-- Run a sequence of synthesis events, accumulating printed lines. -/
def runEvents (s : ExtractingAssignment) : List Event → Option (ExtractingAssignment × List String)
  | [] => some (s, [])
  | e :: rest =>
      (step s e).bind fun p =>
        (runEvents p.1 rest).map fun q => (q.1, p.2 ++ q.2)

/-- The selector-compaction loop of `print_grouping_props` (`extraction.rs`
lines 99–108): walk rows from `r` down to `0` tracking the current value
`curr`; whenever the indicator value changes at a row, emit a `_+(row+1)`
breakpoint arm carrying the previous value; the second component is the value
of the trailing default arm. -/
def selArmsLoop (rows : List ℕ) : ℕ → ℕ → List (ℕ × ℕ) × ℕ
  | 0, curr =>
      if curr ≠ (if rows.contains 0 then 1 else 0)
      then ([(1, curr)], if rows.contains 0 then 1 else 0)
      else ([], curr)
  | r+1, curr =>
      if curr ≠ (if rows.contains (r+1) then 1 else 0)
      then ((r+2, curr) :: (selArmsLoop rows r (if rows.contains (r+1) then 1 else 0)).1,
            (selArmsLoop rows r (if rows.contains (r+1) then 1 else 0)).2)
      else selArmsLoop rows r curr

/-- Arms and default of one selector column's step function: the loop is run
from the maximum recorded row (`BTreeSet::last`, i.e. the last element of the
sorted row list) with initial current value `0`; with no recorded rows only
the default `0` arm is emitted (`extraction.rs` lines 96–111). -/
def selArms (rows : List ℕ) : List (ℕ × ℕ) × ℕ :=
  match rows.getLast? with
  | none => ([], 0)
  | some mx => selArmsLoop rows mx 0

/-- First-match evaluation of a `| _+k => v` arm list followed by a default
arm `| _ => d`: the arm `_+k` matches an input `n` iff `k ≤ n`. -/
def evalArms : List (ℕ × ℕ) → ℕ → ℕ → ℕ
  | [], d, _ => d
  | (k, v) :: rest, d, n => if k ≤ n then v else evalArms rest d n

/-- The function denoted by the emitted `selector_func_col_<col>` text. -/
def selector_func_col_sem (rows : List ℕ) (n : ℕ) : ℕ :=
  evalArms (selArms rows).1 (selArms rows).2 n

/-- The function denoted by the emitted aggregate `selector_func` text:
dispatch on the column index, defaulting to `0` for unrecorded columns. -/
def selector_func_sem (sel : List (ℕ × List ℕ)) (col row : ℕ) : ℕ :=
  match sel.lookup col with
  | some rows => selector_func_col_sem rows row
  | none => 0

/-- The explicit case arms of one fixed column's emitted function: one exact
`| row => value` arm per recorded entry whose text is not `"0"`
(`extraction.rs` lines 144–148). -/
def fixedArms (vals : List (ℕ × String)) : List (ℕ × String) :=
  vals.filter fun rv => rv.2 ≠ "0"

/-- First-match evaluation of exact `| row => value` arms with default `"0"`. -/
def evalExactArms : List (ℕ × String) → ℕ → String
  | [], _ => "0"
  | (r, v) :: rest, n => if n = r then v else evalExactArms rest n

/-- The function denoted by the emitted `fixed_func_col_<col>` text. -/
def fixed_func_col_sem (vals : List (ℕ × String)) (n : ℕ) : String :=
  evalExactArms (fixedArms vals) n

/-- The function denoted by the emitted aggregate `fixed_func` text. -/
def fixed_func_sem (fx : List (ℕ × List (ℕ × String))) (col row : ℕ) : String :=
  match fx.lookup col with
  | some vals => fixed_func_col_sem vals row
  | none => "0"

/-- The `all_copy_constraints` line (`extraction.rs` lines 84–93). -/
def copyAggregateLine (n : ℕ) : String :=
  "def all_copy_constraints " ++ "(" ++ (if n = 0 then "_" else "") ++ "c: Circuit P P_Prime)"
    ++ ": Prop := "
    ++ (if n = 0 then "true"
        else String.intercalate " ∧ " ((List.range n).map fun i => "copy_" ++ toString i ++ " c"))

/-- The lines printed for one selector column (`extraction.rs` lines 96–111). -/
def selColBlock (col : ℕ) (rows : List ℕ) : List String :=
  ["def selector_func_col_" ++ toString col ++ " : ℕ → ZMod P :=",
   "  λ row => match row with"]
  ++ (selArms rows).1.map (fun a => "    | _+" ++ toString a.1 ++ " => " ++ toString a.2)
  ++ ["    | _ => " ++ toString (selArms rows).2]

/-- The aggregate `selector_func` lines (`extraction.rs` lines 114–119). -/
def selectorFuncLines (sel : List (ℕ × List ℕ)) : List String :=
  ["def selector_func : ℕ → ℕ → ZMod P :=",
   "  λ col row => match col with"]
  ++ sel.map (fun p => "    | " ++ toString p.1 ++ " => selector_func_col_" ++ toString p.1 ++ " row")
  ++ ["    | _ => 0"]

/-- The lines printed for one fixed column (`extraction.rs` lines 141–150). -/
def fixedColBlock (col : ℕ) (vals : List (ℕ × String)) : List String :=
  ["def fixed_func_col_" ++ toString col ++ " : ℕ → ZMod P :=",
   "  λ row => match row with"]
  ++ (fixedArms vals).map (fun rv => "    | " ++ toString rv.1 ++ " => " ++ rv.2)
  ++ ["    | _ => 0"]

/-- The aggregate `fixed_func` lines (`extraction.rs` lines 152–161),
including the signature quirk for an empty fixed table (`λ col _` instead of
`λ col row`). -/
def fixedFuncLines (fx : List (ℕ × List (ℕ × String))) : List String :=
  ["def fixed_func : ℕ → ℕ → ZMod P :=",
   if fx.length = 0 then "  λ col _ => match col with" else "  λ col row => match col with"]
  ++ fx.map (fun p => "    | " ++ toString p.1 ++ " => fixed_func_col_" ++ toString p.1 ++ " row")
  ++ ["    | _ => 0"]

/-- `print_grouping_props` (`extraction.rs` lines 83–162): the full ordered
list of lines printed at finalization.  The advice table is *not* rendered
(the `advice_func` block in the source is commented out). -/
def print_grouping_props (s : ExtractingAssignment) : List String :=
  [copyAggregateLine s.copy_count]
  ++ (s.selectors.map (fun p => selColBlock p.1 p.2)).flatten
  ++ selectorFuncLines s.selectors
  ++ (s.fixed.map (fun p => fixedColBlock p.1 p.2)).flatten
  ++ fixedFuncLines s.fixed

/-- Scanner for the regex `S(?P<column>\d+)` with replacement
`"c.Selector $column row"` (`print_gates`, `extraction.rs` line 366 and 380):
at each position, an `S` immediately followed by one or more digits is
replaced (digits taken greedily), scanning left to right, non-overlapping.
The skip counter `k` makes the recursion structural. -/
def selScanAux : ℕ → List Char → List Char
  | _+1, [] => []
  | k+1, _ :: rest => selScanAux k rest
  | 0, [] => []
  | 0, c :: rest =>
      if c = 'S' ∧ (rest.headD ' ').isDigit then
        "c.Selector ".data ++ rest.takeWhile Char.isDigit ++ " row".data
          ++ selScanAux (rest.takeWhile Char.isDigit).length rest
      else c :: selScanAux 0 rest

/-- Attempted match of the regex `([AIF])(\d+)@(-?\d+)` at one position:
on success, the number of characters consumed after the leading kind letter
and the replacement text `"$type $column (row + $row)"`. -/
def cellMatch (c : Char) (rest : List Char) : Option (ℕ × List Char) :=
  if c = 'A' ∨ c = 'I' ∨ c = 'F' then
    let ds := rest.takeWhile Char.isDigit
    if ds.isEmpty then none
    else
      match rest.drop ds.length with
      | '@' :: r2 =>
          let sign : List Char := if (r2.headD ' ') = '-' then ['-'] else []
          let r3 := if (r2.headD ' ') = '-' then r2.drop 1 else r2
          let rs := r3.takeWhile Char.isDigit
          if rs.isEmpty then none
          else some (ds.length + 1 + sign.length + rs.length,
                     [c, ' '] ++ ds ++ " (row + ".data ++ sign ++ rs ++ [')'])
      | _ => none
  else none

/-- Scanner for the cell-reference regex (`extraction.rs` line 367, 377–383). -/
def cellScanAux : ℕ → List Char → List Char
  | _+1, [] => []
  | k+1, _ :: rest => cellScanAux k rest
  | 0, [] => []
  | 0, c :: rest =>
      match cellMatch c rest with
      | some p => p.2 ++ cellScanAux p.1 rest
      | none => c :: cellScanAux 0 rest

/-- Full rewrite of one gate line (`print_gates`, `extraction.rs` lines
377–398): selector rewrite, cell-reference rewrite, the textual `replace`
chain, and stripping of a leading `-`. -/
def translateGate (line : List Char) : List Char :=
  let s := cellScanAux 0 (selScanAux 0 line)
  let s := replaceAll "A ".data "c.Advice ".data s
  let s := replaceAll "I ".data "c.Instance ".data s
  let s := replaceAll "F ".data "c.Fixed ".data s
  let s := replaceAll ['@'] [' '] s
  let s := replaceAll " + 0".data [] s
  if s.headD ' ' = '-' then s.tail else s

/-- The `def gate_<idx>` line printed for one surviving gate line. -/
def gateDefLine (idx : ℕ) (line : String) : String :=
  "def gate_" ++ toString idx ++ ": Prop := ∀ row : ℕ, "
    ++ (⟨translateGate line.data⟩ : String) ++ " = 0"

/-- Rust `str::lines` (used on `gates.to_string()`): split on `'\n'`,
drop a final empty segment (so the empty string yields no lines), and strip
one trailing `'\r'` from each line. -/
def splitLinesAux (cur : List Char) : List Char → List (List Char)
  | [] => [cur.reverse]
  | c :: rest => if c = '\n' then cur.reverse :: splitLinesAux [] rest else splitLinesAux (c :: cur) rest

def rustLines (s : String) : List String :=
  let parts := splitLinesAux [] s.data
  let parts := if parts.getLast? = some [] then parts.dropLast else parts
  parts.map fun l => ⟨if l.getLast? = some '\r' then l.dropLast else l⟩

/-- The colon filter of `print_gates` (`extraction.rs` line 372): lines
containing a `:` (named/annotated rows) are discarded. -/
def gateLines (gateString : String) : List String :=
  (rustLines gateString).filter fun l => !(l.data.contains ':')

/-- `print_gates` (`extraction.rs` lines 364–408): the full ordered list of
printed lines, for a given `gates.to_string()` text. -/
def print_gates (gateString : String) : List String :=
  "------GATES-------"
    :: ((gateLines gateString).enum.map fun p => gateDefLine p.1 p.2)
    ++ [if (gateLines gateString).isEmpty then
          "def all_gates (_c Circuit P P_Prime): Prop := true"
        else
          "def all_gates: Prop := "
            ++ String.intercalate " ∧ "
                ((List.range (gateLines gateString).length).map fun i => "gate_" ++ toString i ++ " c")]

/-- ASCII approximation of the regex class `\s` (the handle texts the
extractor parses only ever contain plain spaces). -/
def isWs (c : Char) : Bool :=
  c = ' ' || c = '\t' || c = '\n' || c = '\x0d' || c = '\x0c' || c = '\x0b'

/-- Match a literal, returning the remaining text. -/
def stripLit (lit s : List Char) : Option (List Char) :=
  if lit.isPrefixOf s then some (s.drop lit.length) else none

/-- Match a single `\s` character. -/
def stripWs : List Char → Option (List Char)
  | c :: r => if isWs c then some r else none
  | [] => none

/-- Match `\d+` greedily, returning the digits and the remaining text. -/
def stripDigits (s : List Char) : Option (List Char × List Char) :=
  let ds := s.takeWhile Char.isDigit
  if ds.isEmpty then none else some (ds, s.drop ds.length)

/-- Numeric value of a digit string (`usize::from_str`; `ℕ`, so no overflow). -/
def natFromDigits (ds : List Char) : ℕ :=
  ds.foldl (fun n c => n * 10 + (c.toNat - '0'.toNat)) 0

/-- `ExtractorError` (`utils.rs` line 8). -/
structure ExtractorError where
deriving DecidableEq

/-- Match of the column regex
`Column\s\{\sindex:\s(\d+),\scolumn_type:\s(Advice|Instance|Fixed)\s\}`
(`utils.rs` line 27) at position `i` of `s`, yielding the parsed
`(index, column_type)` on success. -/
def colMatchAt (s : List Char) (i : ℕ) : Option (ℕ × AnyKind) := do
  let r ← stripLit "Column".data (s.drop i)
  let r ← stripWs r
  let r ← stripLit ['\x7b'] r
  let r ← stripWs r
  let r ← stripLit "index:".data r
  let r ← stripWs r
  let (ds, r) ← stripDigits r
  let r ← stripLit [','] r
  let r ← stripWs r
  let r ← stripLit "column_type:".data r
  let r ← stripWs r
  let (kind, r) ←
    match stripLit "Advice".data r with
    | some r => some (AnyKind.Advice, r)
    | none =>
        match stripLit "Instance".data r with
        | some r => some (AnyKind.Instance, r)
        | none => (stripLit "Fixed".data r).map fun r => (AnyKind.Fixed, r)
  let r ← stripWs r
  let _ ← stripLit ['\x7d'] r
  some (natFromDigits ds, kind)

/-- `impl TryFrom<&str> for Halo2Column` (`utils.rs` lines 22–48): the first
(leftmost) match of the column regex yields `Ok`; no match yields
`Err(ExtractorError)`. -/
def Halo2Column.tryFrom (s : List Char) : Except ExtractorError (ℕ × AnyKind) :=
  match (List.range (s.length + 1)).findSome? (colMatchAt s) with
  | some x => Except.ok x
  | none => Except.error ⟨⟩

/-- Match of the selector regex `Selector\((\d+),\s(.*)\)` (`utils.rs`
line 56) at position `i` of `s`: after `Selector(`, digits, `,` and one
whitespace character, the rest of the match is any run of non-newline
characters followed by `)` — which exists iff a `)` occurs before the next
newline. -/
def selMatchAt (s : List Char) (i : ℕ) : Option ℕ := do
  let r ← stripLit "Selector(".data (s.drop i)
  let (ds, r) ← stripDigits r
  let r ← stripLit [','] r
  let r ← stripWs r
  if (r.takeWhile (fun c => c ≠ '\n')).contains ')' then
    some (natFromDigits ds)
  else
    none

/-- `impl TryFrom<&str> for Halo2Selector` (`utils.rs` lines 52–69). -/
def Halo2Selector.tryFrom (s : List Char) : Except ExtractorError ℕ :=
  match (List.range (s.length + 1)).findSome? (selMatchAt s) with
  | some x => Except.ok x
  | none => Except.error ⟨⟩

/-- The instance-reference token shape `"Instance <idx> <row>"` claimed by
the specification: an occurrence of `"Instance "` followed by a digit. -/
def instanceShapeAt (s : List Char) (i : ℕ) : Bool :=
  patStart.isPrefixOf (s.drop i) && (((s.drop i).drop patStart.length).headD ' ').isDigit

def hasInstanceShape (s : List Char) : Bool :=
  (List.range (s.length + 1)).any (instanceShapeAt s)

/-- `str::starts_with`, on the Lean side of the embedding. -/
def strStarts (pre s : String) : Bool := pre.data.isPrefixOf s.data

/-- The arguments of one `copy` call. -/
structure CopyArgs where
  lk : AnyKind
  lcol : ℕ
  lrow : ℕ
  rk : AnyKind
  rcol : ℕ
  rrow : ℕ
deriving DecidableEq

/-- The copy events of an event sequence, in observation order. -/
def copyArgsOf : List Event → List CopyArgs
  | [] => []
  | Event.copyEv lk lc lr rk rc rr :: rest => ⟨lk, lc, lr, rk, rc, rr⟩ :: copyArgsOf rest
  | Event.enterRegion _ :: rest => copyArgsOf rest
  | Event.exitRegion :: rest => copyArgsOf rest
  | Event.enableSelector _ _ :: rest => copyArgsOf rest
  | Event.assignAdvice _ _ _ :: rest => copyArgsOf rest
  | Event.assignFixed _ _ _ :: rest => copyArgsOf rest
  | Event.fillFromRow :: rest => copyArgsOf rest
  | Event.pushNamespace _ :: rest => copyArgsOf rest
  | Event.popNamespace :: rest => copyArgsOf rest
  | Event.annotateColumnEv :: rest => copyArgsOf rest
  | Event.getChallengeEv :: rest => copyArgsOf rest

/-- The copy-constraint definitions printed for a run of copy events whose
first one sees counter value `i`: indices are consecutive from `i`. -/
def copyLinesFrom (i : ℕ) : List CopyArgs → List String
  | [] => []
  | a :: rest => copyLine i a.lk a.lcol a.lrow a.rk a.rcol a.rrow :: copyLinesFrom (i + 1) rest

/-- The shapes of output lines that synthesis events may print eagerly:
region markers, diagnostic markers, and per-copy-constraint definitions —
never a table definition (those are only printed by
`print_grouping_props`). -/
def eagerLine (l : String) : Prop :=
  (∃ name, l = "\n-- Entered region: " ++ name)
  ∨ (∃ name, l = "-- Exited region: " ++ name)
  ∨ l = "--Annotate column"
  ∨ l = "--Get challenge"
  ∨ (∃ i lk lc lr rk rc rr, l = copyLine i lk lc lr rk rc rr)


/-! ### Generic lemmas about `replaceAll` and the pattern constants -/

theorem replaceAllAux_skip (pat rep : List Char) :
    ∀ (s : List Char) (k : ℕ), replaceAllAux pat rep k s = replaceAllAux pat rep 0 (s.drop k) := by
  intro s
  induction s with
  | nil => intro k; cases k <;> rfl
  | cons c rest ih =>
    intro k
    cases k with
    | zero => rfl
    | succ k => simpa [replaceAllAux] using ih k

theorem replaceAll_nil (pat rep : List Char) : replaceAll pat rep [] = [] := rfl

theorem replaceAll_cons (pat rep : List Char) (c : Char) (rest : List Char) :
    replaceAll pat rep (c :: rest) =
      if pat.isPrefixOf (c :: rest) then
        rep ++ replaceAll pat rep (rest.drop (pat.length - 1))
      else c :: replaceAll pat rep rest := by
  simp only [replaceAll, replaceAllAux]
  rw [replaceAllAux_skip]

theorem patSpace_eq : patSpace = " Instance".data := by decide

theorem repSpace_eq : repSpace = " c.Instance".data := by decide

theorem patParen_eq : patParen = "(Instance".data := by decide

theorem repParen_eq : repParen = "(c.Instance".data := by decide

theorem patStart_eq : patStart = "Instance ".data := by decide


/-! ### Correctness of the selector step-function compaction -/

/-- Invariant of the compaction loop: if the tracked value `curr` is the
indicator value of row `r+1`, then the arms produced by the loop evaluate to
`curr` at rows above `r` and to the recorded indicator at rows `≤ r`. -/
theorem selArmsLoop_eval (rows : List ℕ) :
    ∀ (r curr : ℕ), curr = (if rows.contains (r+1) then 1 else 0) →
      ∀ n, evalArms (selArmsLoop rows r curr).1 (selArmsLoop rows r curr).2 n
        = if r + 1 ≤ n then curr else (if rows.contains n then 1 else 0) := by
  intro r
  induction r with
  | zero =>
    intro curr _ n
    by_cases hc : curr = (if rows.contains 0 then 1 else 0)
    · simp only [selArmsLoop, hc, ne_eq, not_true_eq_false, if_false, ite_not]
      simp only [evalArms]
      rcases n with _ | n
      · simp [← hc]
      · simp
    · simp only [selArmsLoop, ne_eq, hc, not_false_eq_true, if_true]
      simp only [evalArms]
      rcases n with _ | n
      · simp
      · simp
  | succ r ih =>
    intro curr _ n
    simp only [selArmsLoop, ne_eq, ite_not]
    by_cases hc : curr = (if rows.contains (r+1) then 1 else 0)
    · rw [if_pos hc, ih curr hc n]
      rcases Nat.lt_trichotomy n (r+1) with h | h | h
      · rw [if_neg (show ¬(r+1 ≤ n) by omega), if_neg (show ¬(r+1+1 ≤ n) by omega)]
      · subst h
        rw [if_pos (show r+1 ≤ r+1 by omega), if_neg (show ¬(r+1+1 ≤ r+1) by omega)]
        exact hc
      · rw [if_pos (show r+1 ≤ n by omega), if_pos (show r+1+1 ≤ n by omega)]
    · rw [if_neg hc]
      simp only [evalArms]
      rw [ih (if rows.contains (r+1) then 1 else 0) rfl n]
      rcases Nat.lt_trichotomy n (r+1) with h | h | h
      · rw [if_neg (show ¬(r+1+1 ≤ n) by omega), if_neg (show ¬(r+1 ≤ n) by omega),
          if_neg (show ¬(r+1+1 ≤ n) by omega)]
      · subst h
        rw [if_neg (show ¬(r+1+1 ≤ r+1) by omega), if_pos (show r+1 ≤ r+1 by omega),
          if_neg (show ¬(r+1+1 ≤ r+1) by omega)]
      · rw [if_pos (show r+1+1 ≤ n by omega), if_pos (show r+1+1 ≤ n by omega)]

/-- In a strictly ascending list, every element is bounded by the last one. -/
theorem chain_le_getLast :
    ∀ (l : List ℕ), l.Chain' (· < ·) → ∀ m, l.getLast? = some m → ∀ x ∈ l, x ≤ m := by
  intro l
  induction l with
  | nil => intro _ m _ x hx; cases hx
  | cons a t ih =>
    intro hc m hm x hx
    cases t with
    | nil =>
      simp only [List.getLast?_singleton, Option.some.injEq] at hm
      simp only [List.mem_singleton] at hx
      omega
    | cons b t' =>
      rw [List.getLast?_cons_cons] at hm
      have hab : a < b := (List.chain'_cons.mp hc).1
      have ht : (b :: t').Chain' (· < ·) := (List.chain'_cons.mp hc).2
      have hb : b ≤ m := ih ht m hm b (by simp)
      rcases List.mem_cons.mp hx with h | h
      · omega
      · exact ih ht m hm x h

/-- Strictly ascending lists (the model of `BTreeSet` row sets) have
`Bool`-level membership agreeing with `∈`. -/
theorem contains_bound (l : List ℕ) (hc : l.Chain' (· < ·)) (m : ℕ)
    (hm : l.getLast? = some m) (x : ℕ) (hx : m < x) : l.contains x = false := by
  by_contra h
  have hx' : x ∈ l := by
    have := Bool.not_eq_false (l.contains x) |>.mp h
    exact List.elem_iff.mp this
  have := chain_le_getLast l hc m hm x hx'
  omega

/-- On a strictly ascending row list (the `BTreeSet` invariant), the step
function emitted by `print_grouping_props` — descending `_+k` breakpoint
arms followed by a default arm, evaluated with first-match semantics —
yields `1` exactly on the active rows and `0` everywhere else, including
all rows beyond the maximum active row. -/
theorem selector_roundtrip_of_sorted (rows : List ℕ) (hs : rows.Chain' (· < ·)) (n : ℕ) :
    selector_func_col_sem rows n = if rows.contains n then 1 else 0 := by
  unfold selector_func_col_sem selArms
  cases hlast : rows.getLast? with
  | none =>
    have : rows = [] := List.getLast?_eq_none_iff.mp hlast
    subst this
    simp [evalArms]
  | some mx =>
    have h0 : (0 : ℕ) = if rows.contains (mx+1) then 1 else 0 := by
      rw [contains_bound rows hs mx hlast (mx+1) (by omega)]
      simp
    rw [selArmsLoop_eval rows mx 0 h0 n]
    by_cases hn : mx + 1 ≤ n
    · rw [if_pos hn, contains_bound rows hs mx hlast n (by omega)]
      simp
    · rw [if_neg hn]

/-! ### Idempotence of the scoping rewrite -/

theorem hasOcc_drop (pat : List Char) :
    ∀ (s : List Char), hasOcc pat s = false → ∀ k, hasOcc pat (s.drop k) = false := by
  intro s
  induction s with
  | nil => intro h k; simpa using h
  | cons c rest ih =>
    intro h k
    cases k with
    | zero => exact h
    | succ k =>
      simp only [hasOcc, Bool.or_eq_false_iff] at h
      exact ih h.2 k

theorem replaceAll_eq_self (pat rep : List Char) :
    ∀ (s : List Char), hasOcc pat s = false → replaceAll pat rep s = s := by
  intro s
  induction s with
  | nil => intro _; exact replaceAll_nil pat rep
  | cons c rest ih =>
    intro h
    simp only [hasOcc, Bool.or_eq_false_iff] at h
    rw [replaceAll_cons, if_neg (by simp [h.1]), ih h.2]

/-- A word that avoids the pattern's head character can only be a prefix of
`replaceAll pat rep s` when it is already a prefix of `s` (both the pattern
and its replacement begin with that character, so the scanner never changes
the text in front of such a word). -/
theorem isPrefixOf_replaceAll (p : Char) (ps rep' : List Char) :
    ∀ (s w : List Char), (∀ ch ∈ w, ch ≠ p) →
      w.isPrefixOf (replaceAll (p :: ps) (p :: rep') s) = true → w.isPrefixOf s = true := by
  intro s
  induction s with
  | nil =>
    intro w _ h
    rw [replaceAll_nil] at h
    cases w with
    | nil => simp
    | cons a as => simp [List.isPrefixOf] at h
  | cons c rest ih =>
    intro w hw h
    rw [replaceAll_cons] at h
    by_cases hp : (p :: ps).isPrefixOf (c :: rest) = true
    · rw [if_pos hp] at h
      cases w with
      | nil => simp
      | cons a as =>
        simp only [List.cons_append, List.isPrefixOf, Bool.and_eq_true, beq_iff_eq] at h
        exact absurd h.1 (hw a (by simp))
    · rw [if_neg hp] at h
      cases w with
      | nil => simp
      | cons a as =>
        simp only [List.isPrefixOf, Bool.and_eq_true, beq_iff_eq] at h ⊢
        exact ⟨h.1, ih as (fun ch hch => hw ch (by simp [hch])) h.2⟩

theorem hasOcc_repSpace_append (X : List Char) (h : hasOcc patSpace X = false) :
    hasOcc patSpace (repSpace ++ X) = false := by
  simpa [hasOcc, List.isPrefixOf, patSpace, repSpace, instTail] using h

theorem hasOcc_repParen_append (X : List Char) (h : hasOcc patParen X = false) :
    hasOcc patParen (repParen ++ X) = false := by
  simpa [hasOcc, List.isPrefixOf, patParen, repParen, instTail] using h

theorem hasOcc_patSpace_repParen_append (X : List Char) (h : hasOcc patSpace X = false) :
    hasOcc patSpace (repParen ++ X) = false := by
  simpa [hasOcc, List.isPrefixOf, patSpace, repParen, instTail] using h

/-- The first replacement pass leaves no `" Instance"` occurrence behind. -/
theorem hasOcc_replaceSpace :
    ∀ (s : List Char), hasOcc patSpace (replaceAll patSpace repSpace s) = false
  | [] => by decide
  | c :: rest => by
      rw [replaceAll_cons]
      by_cases hp : patSpace.isPrefixOf (c :: rest) = true
      · rw [if_pos hp]
        exact hasOcc_repSpace_append _ (hasOcc_replaceSpace (rest.drop (patSpace.length - 1)))
      · rw [if_neg hp]
        simp only [hasOcc, Bool.or_eq_false_iff]
        refine ⟨?_, hasOcc_replaceSpace rest⟩
        by_contra hpre
        rw [Bool.not_eq_false] at hpre
        have hc : ' ' = c ∧ instTail.isPrefixOf (replaceAll patSpace repSpace rest) = true := by
          simpa only [patSpace, List.isPrefixOf, Bool.and_eq_true, beq_iff_eq] using hpre
        have htail : instTail.isPrefixOf rest = true :=
          isPrefixOf_replaceAll ' ' instTail ('c' :: '.' :: instTail) rest instTail
            (by decide) hc.2
        apply hp
        rw [← hc.1]
        simp only [patSpace, List.isPrefixOf, Bool.and_eq_true, beq_iff_eq]
        exact ⟨trivial, htail⟩
termination_by s => s.length
decreasing_by all_goals (simp [patSpace, patParen, instTail] <;> omega)

/-- The second replacement pass leaves no `"(Instance"` occurrence behind. -/
theorem hasOcc_replaceParen :
    ∀ (s : List Char), hasOcc patParen (replaceAll patParen repParen s) = false
  | [] => by decide
  | c :: rest => by
      rw [replaceAll_cons]
      by_cases hp : patParen.isPrefixOf (c :: rest) = true
      · rw [if_pos hp]
        exact hasOcc_repParen_append _ (hasOcc_replaceParen (rest.drop (patParen.length - 1)))
      · rw [if_neg hp]
        simp only [hasOcc, Bool.or_eq_false_iff]
        refine ⟨?_, hasOcc_replaceParen rest⟩
        by_contra hpre
        rw [Bool.not_eq_false] at hpre
        have hc : '(' = c ∧ instTail.isPrefixOf (replaceAll patParen repParen rest) = true := by
          simpa only [patParen, List.isPrefixOf, Bool.and_eq_true, beq_iff_eq] using hpre
        have htail : instTail.isPrefixOf rest = true :=
          isPrefixOf_replaceAll '(' instTail ('c' :: '.' :: instTail) rest instTail
            (by decide) hc.2
        apply hp
        rw [← hc.1]
        simp only [patParen, List.isPrefixOf, Bool.and_eq_true, beq_iff_eq]
        exact ⟨trivial, htail⟩
termination_by s => s.length
decreasing_by all_goals (simp [patSpace, patParen, instTail] <;> omega)

/-- The second replacement pass cannot (re-)introduce a `" Instance"`
occurrence. -/
theorem hasOcc_patSpace_replaceParen :
    ∀ (s : List Char), hasOcc patSpace s = false →
      hasOcc patSpace (replaceAll patParen repParen s) = false
  | [] => fun _ => by decide
  | c :: rest => fun h => by
      rw [replaceAll_cons]
      by_cases hp : patParen.isPrefixOf (c :: rest) = true
      · rw [if_pos hp]
        exact hasOcc_patSpace_repParen_append _
          (hasOcc_patSpace_replaceParen (rest.drop (patParen.length - 1))
            (hasOcc_drop patSpace (c :: rest) h patParen.length))
      · rw [if_neg hp]
        simp only [hasOcc, Bool.or_eq_false_iff] at h ⊢
        refine ⟨?_, hasOcc_patSpace_replaceParen rest h.2⟩
        by_contra hpre
        rw [Bool.not_eq_false] at hpre
        have hc : ' ' = c ∧ instTail.isPrefixOf (replaceAll patParen repParen rest) = true := by
          simpa only [patSpace, List.isPrefixOf, Bool.and_eq_true, beq_iff_eq] using hpre
        have htail : instTail.isPrefixOf rest = true :=
          isPrefixOf_replaceAll '(' instTail ('c' :: '.' :: instTail) rest instTail
            (by decide) hc.2
        have : patSpace.isPrefixOf (c :: rest) = true := by
          rw [← hc.1]
          simp only [patSpace, List.isPrefixOf, Bool.and_eq_true, beq_iff_eq]
          exact ⟨trivial, htail⟩
        simp [this] at h
termination_by s => s.length
decreasing_by all_goals (simp [patSpace, patParen, instTail] <;> omega)

/-- The output of the two replacement passes of the scoping rewrite is free
of both patterns. -/
theorem scope_passes_clean (s : List Char) :
    hasOcc patSpace (replaceAll patParen repParen (replaceAll patSpace repSpace s)) = false
    ∧ hasOcc patParen (replaceAll patParen repParen (replaceAll patSpace repSpace s)) = false :=
  ⟨hasOcc_patSpace_replaceParen _ (hasOcc_replaceSpace s), hasOcc_replaceParen _⟩

theorem scopeList_idem (s : List Char) : scopeList (scopeList s) = scopeList s := by
  simp only [scopeList]
  obtain ⟨h1, h2⟩ := scope_passes_clean s
  by_cases hs : patStart.isPrefixOf
      (replaceAll patParen repParen (replaceAll patSpace repSpace s)) = true
  · rw [if_pos hs]
    set t := replaceAll patParen repParen (replaceAll patSpace repSpace s) with ht
    have h1' : hasOcc patSpace ('c' :: '.' :: t) = false := by
      simpa [hasOcc, List.isPrefixOf, patSpace, instTail] using h1
    have h2' : hasOcc patParen ('c' :: '.' :: t) = false := by
      simpa [hasOcc, List.isPrefixOf, patParen, instTail] using h2
    rw [replaceAll_eq_self _ _ _ h1', replaceAll_eq_self _ _ _ h2']
    rw [if_neg (by simp [patStart, instTail, List.isPrefixOf])]
  · rw [if_neg hs]
    rw [replaceAll_eq_self _ _ _ h1, replaceAll_eq_self _ _ _ h2]
    rw [if_neg hs]

/-- C7 (amended): the scoping rewrite qualifies each occurrence at most
once — applying `add_lean_scoping` to text it has already rewritten returns
that text unchanged, for every input string. -/
theorem add_lean_scoping_idempotent (s : String) :
    add_lean_scoping (add_lean_scoping s) = add_lean_scoping s := by
  show (⟨scopeList (scopeList s.data)⟩ : String) = ⟨scopeList s.data⟩
  exact congrArg String.mk (scopeList_idem s.data)

/-- C7 (counterexample): `add_lean_scoping` rewrites text containing no
token of the instance-reference shape `"Instance <idx> <row>"` — the match
is on the bare prefix `" Instance"`, whatever follows.  So the rewrite does
*not* qualify only exact-shape tokens, and does not leave every other token
unchanged. -/
theorem add_lean_scoping_rewrites_non_shape_token :
    hasInstanceShape "a Instanced b".data = false
    ∧ add_lean_scoping "a Instanced b" = "a c.Instanced b"
    ∧ add_lean_scoping "a Instanced b" ≠ "a Instanced b" := by
  refine ⟨by decide, by decide, by decide⟩

/-! ### String prefix helpers -/

theorem string_data_append (s t : String) : (s ++ t).data = s.data ++ t.data := rfl

theorem isPrefixOf_self_append (l X : List Char) : l.isPrefixOf (l ++ X) = true := by
  induction l with
  | nil => simp [List.isPrefixOf]
  | cons a as ih => simp [List.isPrefixOf, ih]

/-! ### C4: gate translation -/

/-- C4: on the input line `S0 * (A1@0 - A2@-1)` the gate translator emits a
predicate universally quantified over a natural-number `row` whose body is
the claimed expression — the selector reference becomes
`c.Selector 0 row`, the advice references become `c.Advice 1 row` (the
elided `+ 0` offset leaves redundant parentheses `(row)`) and
`c.Advice 2 (row + -1)` — asserted equal to `0` for all rows. -/
theorem gate_translation_example :
    print_gates "S0 * (A1@0 - A2@-1)" =
      ["------GATES-------",
       "def gate_0: Prop := ∀ row : ℕ, c.Selector 0 row * (c.Advice 1 (row) - c.Advice 2 (row + -1)) = 0",
       "def all_gates: Prop := gate_0 c"] := by decide

/-! ### C9: empty aggregates -/

/-- C9: empty aggregates degenerate to the constant truth predicate: with a
zero copy counter the emitted `all_copy_constraints` body is `true`, and
when no gate line survives colon-filtering the emitted `all_gates`
aggregate is the trivially-true definition. -/
theorem empty_aggregates_true (st : ExtractingAssignment) (h0 : st.copy_count = 0)
    (g : String) (hg : gateLines g = []) :
    (print_grouping_props st).head? =
        some "def all_copy_constraints (_c: Circuit P P_Prime): Prop := true"
    ∧ print_gates g =
        ["------GATES-------", "def all_gates (_c Circuit P P_Prime): Prop := true"] := by
  constructor
  · show some (copyAggregateLine st.copy_count) = _
    rw [h0]
    decide
  · simp only [print_gates, hg]
    decide

/-- Witness for C9: the fresh recorder state and a gate list consisting of a
single annotated (colon-bearing) line. -/
theorem empty_aggregates_true_witness :
    (print_grouping_props (ExtractingAssignment.new Target.Constraints)).head? =
        some "def all_copy_constraints (_c: Circuit P P_Prime): Prop := true"
    ∧ print_gates "named: S0 * A0@0" =
        ["------GATES-------", "def all_gates (_c Circuit P P_Prime): Prop := true"] :=
  empty_aggregates_true (ExtractingAssignment.new Target.Constraints) rfl
    "named: S0 * A0@0" (by decide)

/-! ### C10: unknown values record nothing -/

/-- C10: when the value thunk evaluates to an unknown/absent `Value`, both
`assign_fixed` and `assign_advice` (the latter in either mode, so in
particular in `AdviceGenerator` mode) succeed while recording nothing: the
recorder state is returned unchanged and nothing is printed. -/
theorem unknown_value_records_nothing (s : ExtractingAssignment) (col row : ℕ) :
    assign_fixed s col row (fun _ => none) = (s, [])
    ∧ assign_advice s col row (fun _ => none) = (s, []) := by
  refine ⟨rfl, ?_⟩
  cases h : s.target <;> simp [assign_advice, h]

/-! ### Run traces: copy indices, eager output, mode independence -/

theorem copyArgsOf_cons (e : Event) (rest : List Event) :
    copyArgsOf (e :: rest) = copyArgsOf [e] ++ copyArgsOf rest := by
  cases e <;> simp [copyArgsOf]

theorem copyLinesFrom_append (i : ℕ) (l1 l2 : List CopyArgs) :
    copyLinesFrom i (l1 ++ l2) = copyLinesFrom i l1 ++ copyLinesFrom (i + l1.length) l2 := by
  induction l1 generalizing i with
  | nil => simp [copyLinesFrom]
  | cons a t ih =>
    show copyLine i a.lk a.lcol a.lrow a.rk a.rcol a.rrow :: copyLinesFrom (i + 1) (t ++ l2) = _
    rw [ih (i + 1), show i + 1 + t.length = i + (t.length + 1) from by omega]
    rfl

theorem strStarts_copyLine (i : ℕ) (lk : AnyKind) (lc lr : ℕ) (rk : AnyKind) (rc rr : ℕ) :
    strStarts "def copy_" (copyLine i lk lc lr rk rc rr) = true := by
  simp only [strStarts, copyLine, string_data_append, List.append_assoc]
  exact isPrefixOf_self_append _ _

theorem not_copyLine_enter (name : String) :
    strStarts "def copy_" ("\n-- Entered region: " ++ name) = false := by
  have h1 : "def copy_".data = 'd' :: "ef copy_".data := by decide
  have h2 : "\n-- Entered region: ".data = '\n' :: "-- Entered region: ".data := by decide
  simp [strStarts, string_data_append, h1, h2, List.isPrefixOf]

theorem not_copyLine_exit (name : String) :
    strStarts "def copy_" ("-- Exited region: " ++ name) = false := by
  have h1 : "def copy_".data = 'd' :: "ef copy_".data := by decide
  have h2 : "-- Exited region: ".data = '-' :: "- Exited region: ".data := by decide
  simp [strStarts, string_data_append, h1, h2, List.isPrefixOf]

theorem not_copyLine_annotate : strStarts "def copy_" "--Annotate column" = false := by decide

theorem not_copyLine_challenge : strStarts "def copy_" "--Get challenge" = false := by decide

/-- What one synthesis event contributes: the target is preserved, the copy
counter advances by its number of copy events, the printed lines that are
copy definitions are exactly its (indexed) copy lines, every printed line
has one of the eager shapes, and in `Constraints` mode the advice table is
untouched. -/
theorem step_facts (s : ExtractingAssignment) (e : Event) (p : ExtractingAssignment × List String)
    (hp : step s e = some p) :
    p.1.target = s.target
    ∧ p.1.copy_count = s.copy_count + (copyArgsOf [e]).length
    ∧ p.2.filter (fun l => strStarts "def copy_" l) = copyLinesFrom s.copy_count (copyArgsOf [e])
    ∧ (∀ l ∈ p.2, eagerLine l)
    ∧ (s.target = Target.Constraints → p.1.advice = s.advice) := by
  cases e with
  | enterRegion name =>
    rw [show step s (Event.enterRegion name) = some (enter_region s name) from rfl,
      Option.some.injEq] at hp
    subst hp
    refine ⟨rfl, by simp [copyArgsOf, enter_region], ?_, ?_, fun _ => rfl⟩
    · simp [enter_region, copyArgsOf, copyLinesFrom, List.filter, not_copyLine_enter name]
    · intro l hl
      simp only [enter_region, List.mem_singleton] at hl
      exact Or.inl ⟨name, hl⟩
  | exitRegion =>
    cases hcr : s.current_region with
    | none => rw [show step s Event.exitRegion = exit_region s from rfl] at hp
              simp [exit_region, hcr] at hp
    | some r =>
      rw [show step s Event.exitRegion = exit_region s from rfl] at hp
      simp only [exit_region, hcr, Option.map_some', Option.some.injEq] at hp
      subst hp
      refine ⟨rfl, by simp [copyArgsOf], ?_, ?_, fun _ => rfl⟩
      · simp [copyArgsOf, copyLinesFrom, List.filter, not_copyLine_exit r]
      · intro l hl
        simp only [List.mem_singleton] at hl
        exact Or.inr (Or.inl ⟨r, hl⟩)
  | enableSelector col row =>
    rw [show step s (Event.enableSelector col row) = some (enable_selector s col row) from rfl,
      Option.some.injEq] at hp
    subst hp
    exact ⟨rfl, by simp [copyArgsOf, enable_selector, set_selector],
      by simp [enable_selector, copyArgsOf, copyLinesFrom, List.filter],
      by simp [enable_selector], fun _ => rfl⟩
  | assignAdvice col row val =>
    rw [show step s (Event.assignAdvice col row val)
        = some (assign_advice s col row (fun _ => val)) from rfl, Option.some.injEq] at hp
    subst hp
    cases ht : s.target with
    | Constraints =>
      have hval : assign_advice s col row (fun _ => val) = (s, []) := by
        simp [assign_advice, ht]
      rw [hval]
      exact ⟨ht, by simp [copyArgsOf], by simp [copyArgsOf, copyLinesFrom],
        by simp, fun _ => rfl⟩
    | AdviceGenerator =>
      cases val with
      | none =>
        have hval : assign_advice s col row (fun _ => (none : Option String)) = (s, []) := by
          simp [assign_advice, ht]
        rw [hval]
        exact ⟨ht, by simp [copyArgsOf], by simp [copyArgsOf, copyLinesFrom],
          by simp, fun _ => rfl⟩
      | some v =>
        have hval : assign_advice s col row (fun _ => some v)
            = (set_advice s col row (add_lean_scoping v), []) := by
          simp [assign_advice, ht]
        rw [hval]
        refine ⟨ht, by simp [copyArgsOf, set_advice], by simp [copyArgsOf, copyLinesFrom],
          by simp, fun hct => Target.noConfusion hct⟩
  | assignFixed col row val =>
    rw [show step s (Event.assignFixed col row val)
        = some (assign_fixed s col row (fun _ => val)) from rfl, Option.some.injEq] at hp
    subst hp
    cases val with
    | none =>
      have hval : assign_fixed s col row (fun _ => (none : Option String)) = (s, []) := rfl
      rw [hval]
      exact ⟨rfl, by simp [copyArgsOf], by simp [copyArgsOf, copyLinesFrom],
        by simp, fun _ => rfl⟩
    | some v =>
      have hval : assign_fixed s col row (fun _ => some v)
          = (set_fixed s col row (add_lean_scoping v), []) := rfl
      rw [hval]
      exact ⟨rfl, by simp [copyArgsOf, set_fixed], by simp [copyArgsOf, copyLinesFrom],
        by simp, fun _ => rfl⟩
  | copyEv lk lc lr rk rc rr =>
    rw [show step s (Event.copyEv lk lc lr rk rc rr)
        = some (copy s lk lc lr rk rc rr) from rfl, Option.some.injEq] at hp
    subst hp
    refine ⟨rfl, by simp [copyArgsOf, copy], ?_, ?_, fun _ => rfl⟩
    · simp [copy, copyArgsOf, copyLinesFrom, List.filter, strStarts_copyLine]
    · intro l hl
      simp only [copy, List.mem_singleton] at hl
      exact Or.inr (Or.inr (Or.inr (Or.inr ⟨s.copy_count, lk, lc, lr, rk, rc, rr, hl⟩)))
  | fillFromRow =>
    rw [show step s Event.fillFromRow = some (fill_from_row s) from rfl,
      Option.some.injEq] at hp
    subst hp
    exact ⟨rfl, by simp [copyArgsOf, fill_from_row],
      by simp [fill_from_row, copyArgsOf, copyLinesFrom, List.filter],
      by simp [fill_from_row], fun _ => rfl⟩
  | pushNamespace name =>
    rw [show step s (Event.pushNamespace name) = some (s, []) from rfl,
      Option.some.injEq] at hp
    subst hp
    exact ⟨rfl, by simp [copyArgsOf], by simp [copyArgsOf, copyLinesFrom, List.filter],
      by simp, fun _ => rfl⟩
  | popNamespace =>
    rw [show step s Event.popNamespace = some (s, []) from rfl, Option.some.injEq] at hp
    subst hp
    exact ⟨rfl, by simp [copyArgsOf], by simp [copyArgsOf, copyLinesFrom, List.filter],
      by simp, fun _ => rfl⟩
  | annotateColumnEv =>
    rw [show step s Event.annotateColumnEv = some (annotate_column s) from rfl,
      Option.some.injEq] at hp
    subst hp
    refine ⟨rfl, by simp [copyArgsOf, annotate_column], ?_, ?_, fun _ => rfl⟩
    · simp [annotate_column, copyArgsOf, copyLinesFrom, List.filter_cons, not_copyLine_annotate]
    · intro l hl
      simp only [annotate_column, List.mem_singleton] at hl
      exact Or.inr (Or.inr (Or.inl hl))
  | getChallengeEv =>
    rw [show step s Event.getChallengeEv = some (get_challenge s) from rfl,
      Option.some.injEq] at hp
    subst hp
    refine ⟨rfl, by simp [copyArgsOf, get_challenge], ?_, ?_, fun _ => rfl⟩
    · simp [get_challenge, copyArgsOf, copyLinesFrom, List.filter_cons, not_copyLine_challenge]
    · intro l hl
      simp only [get_challenge, List.mem_singleton] at hl
      exact Or.inr (Or.inr (Or.inr (Or.inl hl)))

theorem runEvents_cons_eq (s : ExtractingAssignment) (e : Event) (rest : List Event)
    (s' : ExtractingAssignment) (out : List String)
    (h : runEvents s (e :: rest) = some (s', out)) :
    ∃ p q, step s e = some p ∧ runEvents p.1 rest = some q
      ∧ s' = q.1 ∧ out = p.2 ++ q.2 := by
  simp only [runEvents, Option.bind_eq_some, Option.map_eq_some'] at h
  obtain ⟨p, hp, q, hq, heq⟩ := h
  obtain ⟨h1, h2⟩ := Prod.mk.injEq .. ▸ heq
  exact ⟨p, q, hp, hq, h1.symm, h2.symm⟩

/-- Master run invariant: target preservation, copy-counter accounting, the
copy-definition trace, eager-output shapes, and advice-frame preservation in
`Constraints` mode. -/
theorem runEvents_master (evs : List Event) :
    ∀ (s s' : ExtractingAssignment) (out : List String),
      runEvents s evs = some (s', out) →
      s'.target = s.target
      ∧ s'.copy_count = s.copy_count + (copyArgsOf evs).length
      ∧ out.filter (fun l => strStarts "def copy_" l) = copyLinesFrom s.copy_count (copyArgsOf evs)
      ∧ (∀ l ∈ out, eagerLine l)
      ∧ (s.target = Target.Constraints → s'.advice = s.advice) := by
  induction evs with
  | nil =>
    intro s s' out h
    simp only [runEvents, Option.some.injEq, Prod.mk.injEq] at h
    obtain ⟨h1, h2⟩ := h
    subst h1; subst h2
    simp [copyArgsOf, copyLinesFrom]
  | cons e rest ih =>
    intro s s' out h
    obtain ⟨p, q, hp, hq, h1, h2⟩ := runEvents_cons_eq s e rest s' out h
    subst h1; subst h2
    obtain ⟨t1, c1, f1, e1, a1⟩ := step_facts s e p hp
    obtain ⟨t2, c2, f2, e2, a2⟩ := ih p.1 q.1 q.2 hq
    refine ⟨t2.trans t1, ?_, ?_, ?_, ?_⟩
    · rw [c2, c1, copyArgsOf_cons e rest, List.length_append]
      omega
    · rw [List.filter_append, f1, f2, c1, copyArgsOf_cons e rest, copyLinesFrom_append]
    · intro l hl
      rcases List.mem_append.mp hl with h | h
      · exact e1 l h
      · exact e2 l h
    · intro hct
      rw [a2 (t1.trans hct), a1 hct]

/-! ### The recorder's table invariants: `BTreeSet`/`BTreeMap` sortedness -/

theorem mem_insertRow (x : ℕ) :
    ∀ (l : List ℕ) (z : ℕ), z ∈ insertRow x l → z = x ∨ z ∈ l := by
  intro l
  induction l with
  | nil =>
    intro z hz
    simp only [insertRow, List.mem_singleton] at hz
    exact Or.inl hz
  | cons y ys ih =>
    intro z hz
    simp only [insertRow] at hz
    by_cases h1 : x < y
    · rw [if_pos h1] at hz
      rcases List.mem_cons.mp hz with h | h
      · exact Or.inl h
      · exact Or.inr h
    · by_cases h2 : x = y
      · rw [if_neg h1, if_pos h2] at hz
        exact Or.inr hz
      · rw [if_neg h1, if_neg h2] at hz
        rcases List.mem_cons.mp hz with h | h
        · exact Or.inr (by simp [h])
        · rcases ih z h with h' | h'
          · exact Or.inl h'
          · exact Or.inr (by simp [h'])

theorem pairwise_insertRow (x : ℕ) :
    ∀ (l : List ℕ), l.Pairwise (· < ·) → (insertRow x l).Pairwise (· < ·) := by
  intro l
  induction l with
  | nil => intro _; simp [insertRow]
  | cons y ys ih =>
    intro hp
    rw [List.pairwise_cons] at hp
    obtain ⟨hy, hys⟩ := hp
    simp only [insertRow]
    by_cases h1 : x < y
    · rw [if_pos h1, List.pairwise_cons]
      refine ⟨?_, List.pairwise_cons.mpr ⟨hy, hys⟩⟩
      intro b hb
      rcases List.mem_cons.mp hb with h | h
      · omega
      · have := hy b h
        omega
    · by_cases h2 : x = y
      · rw [if_neg h1, if_pos h2, List.pairwise_cons]
        exact ⟨hy, hys⟩
      · rw [if_neg h1, if_neg h2, List.pairwise_cons]
        refine ⟨?_, ih hys⟩
        intro b hb
        rcases mem_insertRow x ys b hb with h | h
        · omega
        · exact hy b h

theorem chain_insertRow (x : ℕ) (l : List ℕ) (h : l.Chain' (· < ·)) :
    (insertRow x l).Chain' (· < ·) := by
  rw [List.chain'_iff_pairwise] at h ⊢
  exact pairwise_insertRow x l h

/-- `set_selector` keeps every per-column row set strictly ascending. -/
theorem insertSel_rows_sorted (col row : ℕ) :
    ∀ (l : List (ℕ × List ℕ)), (∀ p ∈ l, p.2.Chain' (· < ·)) →
      ∀ p ∈ insertSel col row l, p.2.Chain' (· < ·) := by
  intro l
  induction l with
  | nil =>
    intro _ p hp
    simp only [insertSel, List.mem_singleton] at hp
    subst hp
    simp
  | cons q rest ih =>
    obtain ⟨c, s0⟩ := q
    intro h p hp
    simp only [insertSel] at hp
    by_cases h1 : col < c
    · rw [if_pos h1] at hp
      rcases List.mem_cons.mp hp with h' | h'
      · subst h'
        simp
      · exact h p h'
    · by_cases h2 : col = c
      · rw [if_neg h1, if_pos h2] at hp
        rcases List.mem_cons.mp hp with h' | h'
        · subst h'
          exact chain_insertRow row s0 (h (c, s0) (by simp))
        · exact h p (by simp [h'])
      · rw [if_neg h1, if_neg h2] at hp
        rcases List.mem_cons.mp hp with h' | h'
        · subst h'
          exact h (c, s0) (by simp)
        · exact ih (fun q hq => h q (by simp [hq])) p h'

theorem mem_keys_insertVal {β : Type} (k : ℕ) (v : β) :
    ∀ (l : List (ℕ × β)) (z : ℕ),
      z ∈ (insertVal k v l).map Prod.fst → z = k ∨ z ∈ l.map Prod.fst := by
  intro l
  induction l with
  | nil =>
    intro z hz
    simp only [insertVal, List.map_cons, List.map_nil, List.mem_singleton] at hz
    exact Or.inl hz
  | cons q rest ih =>
    obtain ⟨k', v'⟩ := q
    intro z hz
    simp only [insertVal] at hz
    by_cases h1 : k < k'
    · rw [if_pos h1] at hz
      simp only [List.map_cons, List.mem_cons] at hz
      rcases hz with h | h | h
      · exact Or.inl h
      · exact Or.inr (by simp [h])
      · exact Or.inr (by simp [h])
    · by_cases h2 : k = k'
      · rw [if_neg h1, if_pos h2] at hz
        simp only [List.map_cons, List.mem_cons] at hz
        rcases hz with h | h
        · exact Or.inl h
        · exact Or.inr (by simp [h])
      · rw [if_neg h1, if_neg h2] at hz
        simp only [List.map_cons, List.mem_cons] at hz
        rcases hz with h | h
        · exact Or.inr (by simp [h])
        · rcases ih z h with h' | h'
          · exact Or.inl h'
          · exact Or.inr (by simp [h'])

theorem pairwise_keys_insertVal {β : Type} (k : ℕ) (v : β) :
    ∀ (l : List (ℕ × β)), (l.map Prod.fst).Pairwise (· < ·) →
      ((insertVal k v l).map Prod.fst).Pairwise (· < ·) := by
  intro l
  induction l with
  | nil => intro _; simp [insertVal]
  | cons q rest ih =>
    obtain ⟨k', v'⟩ := q
    intro hp
    rw [List.map_cons, List.pairwise_cons] at hp
    obtain ⟨hk, hrest⟩ := hp
    simp only [insertVal]
    by_cases h1 : k < k'
    · rw [if_pos h1]
      simp only [List.map_cons, List.pairwise_cons]
      refine ⟨?_, hk, hrest⟩
      intro b hb
      rcases List.mem_cons.mp hb with h | h
      · omega
      · have := hk b h
        omega
    · by_cases h2 : k = k'
      · rw [if_neg h1, if_pos h2]
        simp only [List.map_cons, List.pairwise_cons]
        exact ⟨h2 ▸ hk, hrest⟩
      · rw [if_neg h1, if_neg h2]
        simp only [List.map_cons, List.pairwise_cons]
        refine ⟨?_, ih hrest⟩
        intro b hb
        rcases mem_keys_insertVal k v rest b hb with h | h
        · omega
        · exact hk b h

/-- `set_fixed`/`set_advice` keep every per-column row map strictly
ascending in its keys. -/
theorem insertCell_inner_sorted (col row : ℕ) (v : String) :
    ∀ (m : List (ℕ × List (ℕ × String))),
      (∀ p ∈ m, (p.2.map Prod.fst).Pairwise (· < ·)) →
      ∀ p ∈ insertCell col row v m, (p.2.map Prod.fst).Pairwise (· < ·) := by
  intro m
  induction m with
  | nil =>
    intro _ p hp
    simp only [insertCell, List.mem_singleton] at hp
    subst hp
    simp
  | cons q rest ih =>
    obtain ⟨c, inner⟩ := q
    intro h p hp
    simp only [insertCell] at hp
    by_cases h1 : col < c
    · rw [if_pos h1] at hp
      rcases List.mem_cons.mp hp with h' | h'
      · subst h'
        simp
      · exact h p h'
    · by_cases h2 : col = c
      · rw [if_neg h1, if_pos h2] at hp
        rcases List.mem_cons.mp hp with h' | h'
        · subst h'
          exact pairwise_keys_insertVal row v inner (h (c, inner) (by simp))
        · exact h p (by simp [h'])
      · rw [if_neg h1, if_neg h2] at hp
        rcases List.mem_cons.mp hp with h' | h'
        · subst h'
          exact h (c, inner) (by simp)
        · exact ih (fun q hq => h q (by simp [hq])) p h'

/-- One synthesis event preserves the recorder's table invariants. -/
theorem step_tables_wf (s : ExtractingAssignment) (e : Event)
    (p : ExtractingAssignment × List String) (hp : step s e = some p)
    (hsel : ∀ q ∈ s.selectors, q.2.Chain' (· < ·))
    (hfix : ∀ q ∈ s.fixed, (q.2.map Prod.fst).Pairwise (· < ·)) :
    (∀ q ∈ p.1.selectors, q.2.Chain' (· < ·))
    ∧ (∀ q ∈ p.1.fixed, (q.2.map Prod.fst).Pairwise (· < ·)) := by
  cases e with
  | enterRegion name =>
    rw [show step s (Event.enterRegion name) = some (enter_region s name) from rfl,
      Option.some.injEq] at hp
    subst hp
    exact ⟨hsel, hfix⟩
  | exitRegion =>
    cases hcr : s.current_region with
    | none =>
      rw [show step s Event.exitRegion = exit_region s from rfl] at hp
      simp [exit_region, hcr] at hp
    | some r =>
      rw [show step s Event.exitRegion = exit_region s from rfl] at hp
      simp only [exit_region, hcr, Option.map_some', Option.some.injEq] at hp
      subst hp
      exact ⟨hsel, hfix⟩
  | enableSelector col row =>
    rw [show step s (Event.enableSelector col row) = some (enable_selector s col row) from rfl,
      Option.some.injEq] at hp
    subst hp
    exact ⟨insertSel_rows_sorted col row s.selectors hsel, hfix⟩
  | assignAdvice col row val =>
    rw [show step s (Event.assignAdvice col row val)
        = some (assign_advice s col row (fun _ => val)) from rfl, Option.some.injEq] at hp
    subst hp
    cases ht : s.target with
    | Constraints =>
      rw [show assign_advice s col row (fun _ => val) = (s, []) from by simp [assign_advice, ht]]
      exact ⟨hsel, hfix⟩
    | AdviceGenerator =>
      cases val with
      | none =>
        rw [show assign_advice s col row (fun _ => (none : Option String)) = (s, []) from by
          simp [assign_advice, ht]]
        exact ⟨hsel, hfix⟩
      | some v =>
        rw [show assign_advice s col row (fun _ => some v)
            = (set_advice s col row (add_lean_scoping v), []) from by simp [assign_advice, ht]]
        exact ⟨hsel, hfix⟩
  | assignFixed col row val =>
    rw [show step s (Event.assignFixed col row val)
        = some (assign_fixed s col row (fun _ => val)) from rfl, Option.some.injEq] at hp
    subst hp
    cases val with
    | none => exact ⟨hsel, hfix⟩
    | some v =>
      rw [show assign_fixed s col row (fun _ => some v)
          = (set_fixed s col row (add_lean_scoping v), []) from rfl]
      exact ⟨hsel, insertCell_inner_sorted col row (add_lean_scoping v) s.fixed hfix⟩
  | copyEv lk lc lr rk rc rr =>
    rw [show step s (Event.copyEv lk lc lr rk rc rr)
        = some (copy s lk lc lr rk rc rr) from rfl, Option.some.injEq] at hp
    subst hp
    exact ⟨hsel, hfix⟩
  | fillFromRow =>
    rw [show step s Event.fillFromRow = some (fill_from_row s) from rfl,
      Option.some.injEq] at hp
    subst hp
    exact ⟨hsel, hfix⟩
  | pushNamespace name =>
    rw [show step s (Event.pushNamespace name) = some (s, []) from rfl,
      Option.some.injEq] at hp
    subst hp
    exact ⟨hsel, hfix⟩
  | popNamespace =>
    rw [show step s Event.popNamespace = some (s, []) from rfl, Option.some.injEq] at hp
    subst hp
    exact ⟨hsel, hfix⟩
  | annotateColumnEv =>
    rw [show step s Event.annotateColumnEv = some (annotate_column s) from rfl,
      Option.some.injEq] at hp
    subst hp
    exact ⟨hsel, hfix⟩
  | getChallengeEv =>
    rw [show step s Event.getChallengeEv = some (get_challenge s) from rfl,
      Option.some.injEq] at hp
    subst hp
    exact ⟨hsel, hfix⟩

/-- Run-level table invariants: every state reachable by a synthesis run has
strictly ascending selector row sets and strictly ascending per-column fixed
row-map keys. -/
theorem runEvents_tables_wf (evs : List Event) :
    ∀ (s s' : ExtractingAssignment) (out : List String),
      runEvents s evs = some (s', out) →
      (∀ q ∈ s.selectors, q.2.Chain' (· < ·)) →
      (∀ q ∈ s.fixed, (q.2.map Prod.fst).Pairwise (· < ·)) →
      (∀ q ∈ s'.selectors, q.2.Chain' (· < ·))
      ∧ (∀ q ∈ s'.fixed, (q.2.map Prod.fst).Pairwise (· < ·)) := by
  induction evs with
  | nil =>
    intro s s' out h hsel hfix
    simp only [runEvents, Option.some.injEq, Prod.mk.injEq] at h
    obtain ⟨h1, _⟩ := h
    subst h1
    exact ⟨hsel, hfix⟩
  | cons e rest ih =>
    intro s s' out h hsel hfix
    obtain ⟨p, q, hp, hqr, h1, _⟩ := runEvents_cons_eq s e rest s' out h
    subst h1
    obtain ⟨hsel', hfix'⟩ := step_tables_wf s e p hp hsel hfix
    exact ih p.1 q.1 q.2 hqr hsel' hfix'

/-- C1: for every selector column recorded during a run, the step function
emitted by `print_grouping_props` — descending `_+k` breakpoint arms
followed by a default arm, evaluated with first-match semantics — evaluates
to `1` at every row in that column's active-row set and to `0` at every row
not in the set, including all rows beyond the maximum active row; for a
column with no active rows the single emitted default arm yields `0` for
every row including zero. -/
theorem selector_step_function_roundtrip (t : Target) (evs : List Event)
    (s' : ExtractingAssignment) (out : List String)
    (hrun : runEvents (ExtractingAssignment.new t) evs = some (s', out))
    (col : ℕ) (rows : List ℕ) (hmem : (col, rows) ∈ s'.selectors) (n : ℕ) :
    selector_func_col_sem rows n = (if rows.contains n then 1 else 0)
    ∧ selector_func_col_sem [] n = 0 := by
  have hwf := (runEvents_tables_wf evs (ExtractingAssignment.new t) s' out hrun
    (by simp [ExtractingAssignment.new]) (by simp [ExtractingAssignment.new])).1 (col, rows) hmem
  exact ⟨selector_roundtrip_of_sorted rows hwf n, rfl⟩

/-- Witness for C1: a run activating rows 1 and 3 of selector column 0,
evaluated at row 3. -/
theorem selector_step_function_roundtrip_witness :
    selector_func_col_sem [1, 3] 3 = (if List.contains [1, 3] 3 then 1 else 0)
    ∧ selector_func_col_sem [] 3 = 0 :=
  selector_step_function_roundtrip Target.Constraints
    [Event.enableSelector 0 1, Event.enableSelector 0 3]
    ⟨none, Target.Constraints, 0, [(0, [1, 3])], [], []⟩ [] rfl 0 [1, 3] (by decide) 3

/-! ### Association-table lemmas -/

theorem lookup_insertVal_same (k : ℕ) (v : String) :
    ∀ (l : List (ℕ × String)), (insertVal k v l).lookup k = some v := by
  intro l
  induction l with
  | nil => simp [insertVal, List.lookup]
  | cons p rest ih =>
    obtain ⟨k', v'⟩ := p
    simp only [insertVal]
    by_cases h1 : k < k'
    · simp [h1, List.lookup]
    · by_cases h2 : k = k'
      · simp [h1, h2, List.lookup]
      · have hb : (k == k') = false := beq_eq_false_iff_ne.mpr h2
        simp [h1, h2, List.lookup, hb, ih]

theorem lookup_insertVal_other (k : ℕ) (v : String) (r : ℕ) (hr : r ≠ k) :
    ∀ (l : List (ℕ × String)), (insertVal k v l).lookup r = l.lookup r := by
  have hb0 : (r == k) = false := beq_eq_false_iff_ne.mpr hr
  intro l
  induction l with
  | nil => simp [insertVal, List.lookup, hb0]
  | cons p rest ih =>
    obtain ⟨k', v'⟩ := p
    simp only [insertVal]
    by_cases h1 : k < k'
    · simp [h1, List.lookup, hb0]
    · by_cases h2 : k = k'
      · subst h2
        simp [h1, List.lookup, hb0]
      · simp only [h1, h2, if_false]
        by_cases h3 : r = k'
        · subst h3
          simp [List.lookup]
        · have hb3 : (r == k') = false := beq_eq_false_iff_ne.mpr h3
          simp [List.lookup, hb3, ih]

theorem lookup2_insertCell_same (m : List (ℕ × List (ℕ × String))) (col row : ℕ) (v : String) :
    lookup2 col row (insertCell col row v m) = some v := by
  induction m with
  | nil => simp [insertCell, lookup2, List.lookup]
  | cons p rest ih =>
    obtain ⟨c, inner⟩ := p
    simp only [insertCell]
    by_cases h1 : col < c
    · simp [h1, lookup2, List.lookup]
    · by_cases h2 : col = c
      · subst h2
        simp [h1, lookup2, List.lookup, lookup_insertVal_same]
      · have hb : (col == c) = false := beq_eq_false_iff_ne.mpr h2
        simp only [h1, h2, if_false]
        simpa [lookup2, List.lookup, hb] using ih

theorem lookup_eq_none_of_forall_ne {β : Type} (a : ℕ) :
    ∀ (l : List (ℕ × β)), (∀ p ∈ l, a ≠ p.1) → l.lookup a = none := by
  intro l
  induction l with
  | nil => simp [List.lookup]
  | cons p rest ih =>
    intro h
    have hb : (a == p.1) = false := beq_eq_false_iff_ne.mpr (h p (by simp))
    simp only [List.lookup, hb]
    exact ih fun q hq => h q (by simp [hq])

/-- Frame property of a table write, on tables whose column keys are
strictly ascending (the `BTreeMap` invariant of the recorder): every other
`(column, row)` cell is unaffected. -/
theorem lookup2_insertCell_other (m : List (ℕ × List (ℕ × String))) (col row : ℕ) (v : String)
    (hs : (m.map Prod.fst).Pairwise (· < ·))
    (c r : ℕ) (hne : c ≠ col ∨ r ≠ row) :
    lookup2 c r (insertCell col row v m) = lookup2 c r m := by
  induction m with
  | nil =>
    by_cases hc : c = col
    · subst hc
      rcases hne with h | h
      · exact absurd rfl h
      · have hb : (r == row) = false := beq_eq_false_iff_ne.mpr h
        simp [insertCell, lookup2, List.lookup, hb]
    · have hb : (c == col) = false := beq_eq_false_iff_ne.mpr hc
      simp [insertCell, lookup2, List.lookup, hb]
  | cons p rest ih =>
    obtain ⟨c', inner⟩ := p
    rw [List.map_cons, List.pairwise_cons] at hs
    obtain ⟨hlt, hrest⟩ := hs
    simp only [insertCell]
    by_cases h1 : col < c'
    · by_cases hc : c = col
      · subst hc
        rcases hne with h | h
        · exact absurd rfl h
        · have hbr : (r == row) = false := beq_eq_false_iff_ne.mpr h
          have hbc : (c == c') = false := beq_eq_false_iff_ne.mpr (by omega)
          have hnone : rest.lookup c = none := by
            refine lookup_eq_none_of_forall_ne c rest fun q hq => ?_
            have := hlt q.1 (List.mem_map_of_mem Prod.fst hq)
            omega
          simp [h1, lookup2, List.lookup, hbr, hbc, hnone]
      · have hb : (c == col) = false := beq_eq_false_iff_ne.mpr hc
        simp [h1, lookup2, List.lookup, hb]
    · by_cases h2 : col = c'
      · subst h2
        by_cases hc : c = col
        · subst hc
          rcases hne with h | h
          · exact absurd rfl h
          · simp [h1, lookup2, List.lookup, lookup_insertVal_other row v r h]
        · have hb : (c == col) = false := beq_eq_false_iff_ne.mpr hc
          simp [h1, lookup2, List.lookup, hb]
      · simp only [h1, h2, if_false]
        by_cases hc : c = c'
        · subst hc
          simp [lookup2, List.lookup]
        · have hb : (c == c') = false := beq_eq_false_iff_ne.mpr hc
          simpa [lookup2, List.lookup, hb] using ih hrest

/-- C3: each `copy` call emits exactly one equality predicate named with the
current counter value and then increments the counter; over a whole run from
a fresh recorder the copy definitions carry exactly the dense, strictly
increasing indices `0, 1, …` in observation order; and with `N ≠ 0` observed
copy events `print_grouping_props` opens with `all_copy_constraints` as the
conjunction of exactly `copy_0 c ∧ … ∧ copy_(N-1) c`. -/
theorem copy_constraint_indices_dense (t : Target) (evs : List Event)
    (s' : ExtractingAssignment) (out : List String)
    (hrun : runEvents (ExtractingAssignment.new t) evs = some (s', out))
    (hne : copyArgsOf evs ≠ []) :
    (∀ (s : ExtractingAssignment) (lk : AnyKind) (lc lr : ℕ) (rk : AnyKind) (rc rr : ℕ),
        copy s lk lc lr rk rc rr
          = ({ s with copy_count := s.copy_count + 1 }, [copyLine s.copy_count lk lc lr rk rc rr]))
    ∧ s'.copy_count = (copyArgsOf evs).length
    ∧ out.filter (fun l => strStarts "def copy_" l) = copyLinesFrom 0 (copyArgsOf evs)
    ∧ (print_grouping_props s').head? =
        some ("def all_copy_constraints (c: Circuit P P_Prime): Prop := "
          ++ String.intercalate " ∧ "
              ((List.range s'.copy_count).map fun i => "copy_" ++ toString i ++ " c")) := by
  obtain ⟨_, hc, hf, _, _⟩ := runEvents_master evs (ExtractingAssignment.new t) s' out hrun
  have hcount : s'.copy_count = (copyArgsOf evs).length := by
    simpa [ExtractingAssignment.new] using hc
  refine ⟨fun _ _ _ _ _ _ _ => rfl, hcount, by simpa [ExtractingAssignment.new] using hf, ?_⟩
  show some (copyAggregateLine s'.copy_count) = _
  have hn0 : s'.copy_count ≠ 0 := by
    rw [hcount]
    simpa using hne
  have hpre : "def all_copy_constraints " ++ "(" ++ "" ++ "c: Circuit P P_Prime)" ++ ": Prop := "
      = "def all_copy_constraints (c: Circuit P P_Prime): Prop := " := by decide
  simp only [copyAggregateLine, if_neg hn0]
  rw [hpre]

/-- Witness for C3: one copy event from a fresh recorder. -/
theorem copy_constraint_indices_dense_witness :
    (runEvents (ExtractingAssignment.new Target.Constraints)
        [Event.copyEv AnyKind.Advice 0 0 AnyKind.Advice 1 0]).map (fun p => p.1.copy_count)
      = some (copyArgsOf [Event.copyEv AnyKind.Advice 0 0 AnyKind.Advice 1 0]).length := by
  rw [show runEvents (ExtractingAssignment.new Target.Constraints)
      [Event.copyEv AnyKind.Advice 0 0 AnyKind.Advice 1 0]
      = some (⟨none, Target.Constraints, 1, [], [], []⟩,
          ["def copy_0: Prop := c.Advice 0 0 = c.Advice 1 0"]) from rfl]
  rw [Option.map_some']
  exact congrArg some
    ((copy_constraint_indices_dense Target.Constraints
        [Event.copyEv AnyKind.Advice 0 0 AnyKind.Advice 1 0] _ _ rfl (by decide)).2.1)

/-- C5: in `Constraints` mode `assign_advice` is a no-op — it succeeds
without forcing the value thunk (the result is `(s, [])` for *every* thunk)
and changes no recorder state, so any synthesis run in `Constraints` mode
ends with an empty advice table; in `AdviceGenerator` mode the same event
forces the thunk and records the scope-rewritten value keyed by
`(column, row)`, overwriting any prior value for that key, leaving all other
entries and all other state components unchanged. -/
theorem constraints_mode_advice_noop :
    (∀ (s : ExtractingAssignment) (col row : ℕ) (toVal : Unit → Option String),
        s.target = Target.Constraints → assign_advice s col row toVal = (s, []))
    ∧ (∀ (evs : List Event) (s' : ExtractingAssignment) (out : List String),
        runEvents (ExtractingAssignment.new Target.Constraints) evs = some (s', out) →
          s'.advice = [])
    ∧ (∀ (s : ExtractingAssignment) (col row : ℕ) (v : String),
        s.target = Target.AdviceGenerator →
          (assign_advice s col row (fun _ => some v))
            = (set_advice s col row (add_lean_scoping v), [])
          ∧ lookup2 col row (assign_advice s col row (fun _ => some v)).1.advice
              = some (add_lean_scoping v)
          ∧ (∀ c r, (s.advice.map Prod.fst).Pairwise (· < ·) → c ≠ col ∨ r ≠ row →
              lookup2 c r (assign_advice s col row (fun _ => some v)).1.advice
                = lookup2 c r s.advice)
          ∧ (assign_advice s col row (fun _ => some v)).1.fixed = s.fixed
          ∧ (assign_advice s col row (fun _ => some v)).1.selectors = s.selectors
          ∧ (assign_advice s col row (fun _ => some v)).1.copy_count = s.copy_count
          ∧ (assign_advice s col row (fun _ => some v)).1.current_region = s.current_region) := by
  refine ⟨fun s col row toVal ht => by simp [assign_advice, ht], ?_, ?_⟩
  · intro evs s' out hrun
    have := (runEvents_master evs (ExtractingAssignment.new Target.Constraints) s' out hrun).2.2.2.2
    simpa [ExtractingAssignment.new] using this rfl
  · intro s col row v ht
    have hval : assign_advice s col row (fun _ => some v)
        = (set_advice s col row (add_lean_scoping v), []) := by
      simp [assign_advice, ht]
    rw [hval]
    exact ⟨rfl, lookup2_insertCell_same s.advice col row (add_lean_scoping v),
      fun c r hsorted hne =>
        lookup2_insertCell_other s.advice col row (add_lean_scoping v) hsorted c r hne,
      rfl, rfl, rfl, rfl⟩

/-- Witness for C5 at concrete inputs in both modes. -/
theorem constraints_mode_advice_noop_witness :
    assign_advice (ExtractingAssignment.new Target.Constraints) 0 0 (fun _ => some "9")
        = (ExtractingAssignment.new Target.Constraints, [])
    ∧ ((runEvents (ExtractingAssignment.new Target.Constraints)
          [Event.assignAdvice 0 0 (some "9")]).map fun p => p.1.advice) = some []
    ∧ lookup2 0 0 (assign_advice (ExtractingAssignment.new Target.AdviceGenerator) 0 0
          (fun _ => some "9")).1.advice = some (add_lean_scoping "9") := by
  refine ⟨constraints_mode_advice_noop.1 _ 0 0 _ rfl, ?_,
    (constraints_mode_advice_noop.2.2 _ 0 0 "9" rfl).2.1⟩
  rw [show runEvents (ExtractingAssignment.new Target.Constraints)
      [Event.assignAdvice 0 0 (some "9")]
      = some (ExtractingAssignment.new Target.Constraints, []) from rfl]
  rw [Option.map_some']
  exact congrArg some (constraints_mode_advice_noop.2.1 [Event.assignAdvice 0 0 (some "9")] _ _ rfl)

/-- C6 (counterexample): document output *is* emitted before synthesis
succeeds — a single observed copy event already prints its `def copy_0`
equality predicate, so a run that fails after this event has produced
output. -/
theorem output_emitted_during_synthesis :
    runEvents (ExtractingAssignment.new Target.Constraints)
        [Event.copyEv AnyKind.Advice 0 0 AnyKind.Advice 1 0]
      = some (⟨none, Target.Constraints, 1, [], [], []⟩,
          ["def copy_0: Prop := c.Advice 0 0 = c.Advice 1 0"])
    ∧ (["def copy_0: Prop := c.Advice 0 0 = c.Advice 1 0"] : List String) ≠ [] :=
  ⟨rfl, by simp⟩

/-- C6 (amended): during synthesis the recorder prints only region markers,
diagnostic markers and per-copy-constraint definitions — the buffered
selector/fixed/advice tables produce no output until `print_grouping_props`
is invoked after synthesis; so a failure part-way through a run leaves the
already-printed copy/region lines emitted, but never any table
definition. -/
theorem synthesis_output_only_markers_and_copies (s s' : ExtractingAssignment)
    (evs : List Event) (out : List String)
    (h : runEvents s evs = some (s', out)) : ∀ l ∈ out, eagerLine l :=
  (runEvents_master evs s s' out h).2.2.2.1

/-- Witness for the amended C6, at a one-copy-event run. -/
theorem synthesis_output_only_markers_and_copies_witness :
    eagerLine "def copy_0: Prop := c.Advice 0 0 = c.Advice 1 0" :=
  synthesis_output_only_markers_and_copies (ExtractingAssignment.new Target.Constraints) _
    [Event.copyEv AnyKind.Advice 0 0 AnyKind.Advice 1 0] _ rfl
    "def copy_0: Prop := c.Advice 0 0 = c.Advice 1 0" (by decide)

/-! ### C2: the fixed-table round trip; the advice table is never rendered -/

theorem mem_of_lookup {β : Type} (a : ℕ) (b : β) :
    ∀ (l : List (ℕ × β)), l.lookup a = some b → (a, b) ∈ l := by
  intro l
  induction l with
  | nil => simp [List.lookup]
  | cons p rest ih =>
    intro h
    by_cases hab : a = p.1
    · subst hab
      simp only [List.lookup, beq_self_eq_true] at h
      obtain ⟨p1, p2⟩ := p
      simp only [Option.some.injEq] at h
      subst h
      exact List.mem_cons_self _ _
    · have hb : (a == p.1) = false := beq_eq_false_iff_ne.mpr hab
      simp only [List.lookup, hb] at h
      exact List.mem_cons_of_mem _ (ih h)

/-- Evaluating the emitted exact-match arms of a fixed column (only non-`"0"`
entries get arms; default `"0"`) reproduces the recorded map: the recorded
value where present, `"0"` where absent. -/
theorem evalExactArms_filter_lookup :
    ∀ (vals : List (ℕ × String)), (vals.map Prod.fst).Nodup → ∀ (n : ℕ),
      evalExactArms (fixedArms vals) n = (vals.lookup n).getD "0" := by
  intro vals
  induction vals with
  | nil => intro _ n; simp [fixedArms, evalExactArms, List.lookup]
  | cons p rest ih =>
    intro hnd n
    obtain ⟨r0, v0⟩ := p
    rw [List.map_cons, List.nodup_cons] at hnd
    obtain ⟨hnot, hrest⟩ := hnd
    by_cases hv : v0 = "0"
    · have harms : fixedArms ((r0, v0) :: rest) = fixedArms rest := by
        simp [fixedArms, hv]
      rw [harms]
      by_cases hn : n = r0
      · subst hn
        have hnone : rest.lookup n = none := by
          refine lookup_eq_none_of_forall_ne n rest fun q hq heq => hnot ?_
          exact List.mem_map.mpr ⟨q, hq, heq.symm⟩
        rw [ih hrest n, hnone]
        simp [List.lookup, hv]
      · have hb : (n == r0) = false := beq_eq_false_iff_ne.mpr hn
        rw [ih hrest n]
        simp [List.lookup, hb]
    · have harms : fixedArms ((r0, v0) :: rest) = (r0, v0) :: fixedArms rest := by
        simp [fixedArms, hv]
      rw [harms]
      by_cases hn : n = r0
      · subst hn
        simp [evalExactArms, List.lookup]
      · have hb : (n == r0) = false := beq_eq_false_iff_ne.mpr hn
        simp [evalExactArms, hn, List.lookup, hb, ih hrest n]

theorem fixed_func_sem_lookup (fx : List (ℕ × List (ℕ × String)))
    (hnd : ∀ p ∈ fx, (p.2.map Prod.fst).Nodup) (col row : ℕ) :
    fixed_func_sem fx col row = (lookup2 col row fx).getD "0" := by
  unfold fixed_func_sem lookup2
  cases hl : fx.lookup col with
  | none => simp
  | some vals =>
    simp only [Option.some_bind]
    exact evalExactArms_filter_lookup vals (hnd (col, vals) (mem_of_lookup col vals fx hl)) row

/-- C2 (amended): the *fixed* table round-trips — the emitted fixed step
function evaluates at every `(column, row)` to the last value written there
(writes overwrite per key and leave every other cell unchanged), and to the
additive identity `"0"` for every never-written cell.  The *advice* table,
though accumulated with last-write-wins in `AdviceGenerator` mode, is never
rendered: the `print_grouping_props` output is independent of the advice
table (the advice rendering block is commented out in the source). -/
theorem fixed_roundtrip_advice_never_rendered :
    (∀ (m : List (ℕ × List (ℕ × String))) (col row : ℕ) (v : String),
        lookup2 col row (insertCell col row v m) = some v)
    ∧ (∀ (m : List (ℕ × List (ℕ × String))) (col row : ℕ) (v : String),
        (m.map Prod.fst).Pairwise (· < ·) → ∀ c r, c ≠ col ∨ r ≠ row →
          lookup2 c r (insertCell col row v m) = lookup2 c r m)
    ∧ (∀ (fx : List (ℕ × List (ℕ × String))),
        (∀ p ∈ fx, (p.2.map Prod.fst).Nodup) → ∀ col row,
          fixed_func_sem fx col row = (lookup2 col row fx).getD "0")
    ∧ (∀ (s : ExtractingAssignment) (x : List (ℕ × List (ℕ × String))),
        print_grouping_props { s with advice := x } = print_grouping_props s)
    ∧ (∀ (t : Target) (evs : List Event) (s' : ExtractingAssignment) (out : List String),
        runEvents (ExtractingAssignment.new t) evs = some (s', out) → ∀ col row,
          fixed_func_sem s'.fixed col row = (lookup2 col row s'.fixed).getD "0") := by
  refine ⟨fun m col row v => lookup2_insertCell_same m col row v,
    fun m col row v hs c r hne => lookup2_insertCell_other m col row v hs c r hne,
    fun fx hnd col row => fixed_func_sem_lookup fx hnd col row,
    fun _ _ => rfl, ?_⟩
  intro t evs s' out hrun col row
  have hwf := (runEvents_tables_wf evs (ExtractingAssignment.new t) s' out hrun
    (by simp [ExtractingAssignment.new]) (by simp [ExtractingAssignment.new])).2
  exact fixed_func_sem_lookup s'.fixed
    (fun p hp => ((hwf p hp).imp fun hlt => Nat.ne_of_lt hlt)) col row

/-- Witness for the amended C2 at a concrete one-entry fixed table. -/
theorem fixed_roundtrip_advice_never_rendered_witness :
    fixed_func_sem [(0, [(2, "7")])] 0 2 = (lookup2 0 2 [(0, [(2, "7")])]).getD "0" :=
  fixed_roundtrip_advice_never_rendered.2.2.1 [(0, [(2, "7")])] (by decide) 0 2

/-- C2 (counterexample): after an `AdviceGenerator`-mode advice assignment of
value `"5"` to cell `(0, 0)`, the accumulated advice table holds `"5"`, yet
the full `print_grouping_props` output contains no occurrence of the
character `5`: no emitted function can reproduce the written advice value,
because `print_grouping_props` renders no advice table at all. -/
theorem advice_write_never_rendered_cex :
    lookup2 0 0 (assign_advice (ExtractingAssignment.new Target.AdviceGenerator) 0 0
        (fun _ => some "5")).1.advice = some "5"
    ∧ (∀ l ∈ print_grouping_props (assign_advice (ExtractingAssignment.new Target.AdviceGenerator)
        0 0 (fun _ => some "5")).1, hasOcc ['5'] l.data = false) :=
  ⟨by decide, by decide⟩

/-! ### C8: malformed handles error out -/

/-- C8: handle debug text that matches neither known structural shape — no
position of the column text matches the
`Column { index: …, column_type: … }` pattern and no position of the
selector text matches the `Selector(index, …)` pattern — makes identity
resolution return the `ExtractorError` (`MalformedHandle`) failure, and in
particular never an `Ok` result carrying index 0 or any other default. -/
theorem malformed_handle_errors (s t : List Char)
    (hc : ∀ i ∈ List.range (s.length + 1), colMatchAt s i = none)
    (hsel : ∀ i ∈ List.range (t.length + 1), selMatchAt t i = none) :
    Halo2Column.tryFrom s = Except.error ⟨⟩
    ∧ Halo2Selector.tryFrom t = Except.error ⟨⟩
    ∧ (∀ v, Halo2Column.tryFrom s ≠ Except.ok v)
    ∧ (∀ v, Halo2Selector.tryFrom t ≠ Except.ok v) := by
  have h1 : (List.range (s.length + 1)).findSome? (colMatchAt s) = none :=
    List.findSome?_eq_none_iff.mpr hc
  have h2 : (List.range (t.length + 1)).findSome? (selMatchAt t) = none :=
    List.findSome?_eq_none_iff.mpr hsel
  have hcol : Halo2Column.tryFrom s = Except.error ⟨⟩ := by
    unfold Halo2Column.tryFrom
    rw [h1]
  have hselc : Halo2Selector.tryFrom t = Except.error ⟨⟩ := by
    unfold Halo2Selector.tryFrom
    rw [h2]
  exact ⟨hcol, hselc, fun v hv => by rw [hcol] at hv; exact Except.noConfusion hv,
    fun v hv => by rw [hselc] at hv; exact Except.noConfusion hv⟩

/-- Witness for C8 at concrete malformed handle texts. -/
theorem malformed_handle_errors_witness :
    Halo2Column.tryFrom "Selector(0, x)".data = Except.error ⟨⟩
    ∧ Halo2Selector.tryFrom "Column -- 0".data = Except.error ⟨⟩ :=
  ⟨(malformed_handle_errors "Selector(0, x)".data "Column -- 0".data
      (by decide) (by decide)).1,
   (malformed_handle_errors "Selector(0, x)".data "Column -- 0".data
      (by decide) (by decide)).2.1⟩

end Halo2Extractor

